import Mathlib

/-!
Verification development for the conan-package-readme-mcp-server repository.

The repository is a package-metadata proxy for Conan Center.  Its core
(per the specification) is a README usage-example extractor and a
time-bounded TTL cache; around them sit a registry client
(`ConanCenterApi`), a search tool and a GitHub README client.

The registry client (`src/services/conan-center-api.ts`) and the
search-packages tool (`src/tools/search-packages.ts`) are present in the
sources and embedded here directly.  The README parser
(`src/services/readme-parser.ts`), the cache (`src/services/cache.ts`),
and small utilities (`error-handler.ts`) are not part of the provided
sources (only their tests and callers are), so they are modelled from the
specification, faithful to its words and consistent with the repository's
test expectations.
-/

namespace ConanMcp

/-! ## Markdown line predicates (README parser model)

Modelled from the spec: `src/services/readme-parser.ts` is missing from
the sources; §4.2 of the spec defines the scanning rules (fence delimiter
pattern, heading pattern, image-reference pattern) as independent
predicates over single lines.
-/

/-- String manipulation is modelled on the underlying character lists
(`String.data`) throughout, so that every definition evaluates by kernel
reduction and prefix/suffix facts are directly available.  Whitespace
trimming, as in the host language's `trim`. -/
def trimStr (s : String) : String :=
  ⟨((s.data.dropWhile Char.isWhitespace).reverse.dropWhile
      Char.isWhitespace).reverse⟩

/-- Lower-casing, as in the host language's `toLowerCase`. -/
def lowerStr (s : String) : String :=
  ⟨s.data.map Char.toLower⟩

/-- The first `n` characters. -/
def takeStr (s : String) (n : Nat) : String :=
  ⟨s.data.take n⟩

/-- Splitting into lines, as in the host language's `split('\n')`. -/
def splitLinesAux : List Char → List Char → List String
  | [], acc => [⟨acc.reverse⟩]
  | c :: cs, acc =>
      if c = '\n' then ⟨acc.reverse⟩ :: splitLinesAux cs []
      else splitLinesAux cs (c :: acc)

/-- The lines of a document (empty document has one empty line). -/
def splitLines (s : String) : List String :=
  splitLinesAux s.data []

/-- The first space-separated word of a string. -/
def firstWord (s : String) : String :=
  ⟨s.data.takeWhile (fun c => !(c = ' '))⟩

/-- Does `s` start with the marker `p`? -/
def strStarts (s p : String) : Bool :=
  p.data.isPrefixOf s.data

/-- Does `s` end with the marker `p`? -/
def strEnds (s p : String) : Bool :=
  p.data.isSuffixOf s.data

/-- A fenced-code-block delimiter line: a line whose trimmed form starts
with the triple-backtick marker. -/
def isFenceLine (l : String) : Bool :=
  strStarts (trimStr l) "```"

/-- The info-string of an opening fence: the first word after the
triple-backtick delimiter (empty when absent). -/
def fenceInfoString (l : String) : String :=
  firstWord (trimStr ⟨(trimStr l).data.drop 3⟩)

/-- The text of a heading line: leading "#" markers stripped, trimmed. -/
def headingText (l : String) : String :=
  trimStr ⟨(trimStr l).data.dropWhile (fun c => c = '#')⟩

/-- A heading line: one or more leading "#" markers followed by text. -/
def isHeadingLine (l : String) : Bool :=
  strStarts (trimStr l) "#" && headingText l != ""

/-- A top-level heading line: a single leading "#" marker (not "##"). -/
def isTopLevelHeading (l : String) : Bool :=
  strStarts (trimStr l) "#" && !(strStarts (trimStr l) "##")

/-- An image-only line: a line that is entirely a markdown image
reference. -/
def isImageLine (l : String) : Bool :=
  strStarts (trimStr l) "![" && strEnds (trimStr l) ")"

/-! ## Usage-example extraction

Modelled from the spec: `ReadmeParser.parseUsageExamples` of
`src/services/readme-parser.ts` is missing from the sources.  §4.2 of the
spec: scan the document in order; each well-formed fenced block (opening
fence with matching closing fence) yields one `UsageExample`; an
unterminated fence yields nothing; title comes from the nearest heading
in the lookback window bounded by the previous fence or document start;
the description is the prose between that heading and the fence; the
language is the lower-cased info-string, defaulting to "text".  Constants
(default tag, description cap) are fixed consistently with the
repository's tests in `tests/services/readme-parser.test.ts`.
-/

/-- A structured usage example, per the spec's data model and the shape
checked by the repository's tests (`language`, `title`, `code`,
`description`). -/
structure UsageExample where
  language : String
  title : String
  code : String
  description : String
deriving DecidableEq, Repr

/-- Fallback language tag for an empty/absent info-string. -/
def defaultLanguageTag : String := "text"

/-- Defensive cap on description length (a few hundred characters). -/
def descriptionCap : Nat := 300

/-- Normalize a raw info-string to a language tag: lower-cased, with the
empty info-string mapped to the fallback tag. -/
def normalizeLanguage (info : String) : String :=
  if info = "" then defaultLanguageTag else lowerStr info

/-- Scanner state: outside any fenced block (carrying the lookback lines
accumulated since the previous block's closing fence or document start),
or inside a fenced block (carrying that lookback, the opening fence's
info-string and the code lines seen so far). -/
inductive ScanState where
  | outside (pending : List String)
  | inside (pending : List String) (info : String) (code : List String)

/-- Line-by-line scan for fenced blocks, in document order.  Each
well-formed pair of fence delimiters emits one raw block
`(lookback lines, info-string, code lines)`; an opening fence with no
matching closing fence before end of input emits nothing. -/
def scanBlocks : ScanState → List String → List (List String × String × List String)
  | .outside _, [] => []
  | .inside _ _ _, [] => []
  | .outside pending, l :: rest =>
      if isFenceLine l then
        scanBlocks (.inside pending (fenceInfoString l) []) rest
      else
        scanBlocks (.outside (pending ++ [l])) rest
  | .inside pending info code, l :: rest =>
      if isFenceLine l then
        (pending, info, code) :: scanBlocks (.outside []) rest
      else
        scanBlocks (.inside pending info (code ++ [l])) rest

/-- The portion of the lookback window strictly after its last heading
line (the whole window when it contains no heading). -/
def afterLastHeading (pending : List String) : List String :=
  (pending.reverse.takeWhile (fun l => !isHeadingLine l)).reverse

/-- Title of an example: text of the nearest heading line preceding the
fence within the lookback window, else the synthesized
"Example <1-based index>". -/
def titleOf (idx : Nat) (pending : List String) : String :=
  match (pending.filter isHeadingLine).getLast? with
  | some h => headingText h
  | none => "Example " ++ toString (idx + 1)

/-- Description of an example: the non-empty, non-heading lines strictly
between the chosen heading (or the previous block's end) and the fence,
trimmed and joined, capped defensively. -/
def descriptionOf (pending : List String) : String :=
  let seg := (afterLastHeading pending).filter (fun l => trimStr l != "")
  takeStr (String.intercalate " " (seg.map trimStr)) descriptionCap

/-- Assemble the `UsageExample` for the raw block at (0-based) output
position `idx`. -/
def mkExample (idx : Nat) (b : List String × String × List String) : UsageExample :=
  { language := normalizeLanguage b.2.1
    title := titleOf idx b.1
    code := String.intercalate "\n" b.2.2
    description := descriptionOf b.1 }

/-- Line-level extraction: scan for well-formed fenced blocks and build
one example per block, in document order. -/
def parseUsageLines (ls : List String) : List UsageExample :=
  (scanBlocks (.outside []) ls).enum.map fun p => mkExample p.1 p.2

/-- `parseUsageExamples(markdownText)`: split into lines and extract the
ordered sequence of usage examples. -/
def parseUsageExamples (markdownText : String) : List UsageExample :=
  parseUsageLines (splitLines markdownText)

/-! ## Package-description extraction

Modelled from the spec: `ReadmeParser.extractPackageDescription` of
`src/services/readme-parser.ts` is missing from the sources.  §4.2 of the
spec: skip all lines until the first top-level heading, then return the
first subsequent line that is not blank, not image-only, not shorter than
a minimum meaningful length, and not inside a fenced code block (fence
state tracked across the whole scan), trimmed; otherwise a fixed fallback.
The fallback string "Conan package" and the minimum length are fixed
consistently with the repository's tests.
-/

/-- The fixed fallback description, a stable sentinel for "no description
found" (value pinned by `tests/services/readme-parser.test.ts`). -/
def fallbackDescription : String := "Conan package"

/-- Minimum meaningful length of a description line; shorter lines are
treated as non-substantial and skipped ("Short line." must be skipped per
the repository's tests). -/
def minDescriptionLength : Nat := 20

/-- Does a (non-fence, outside-fence) line qualify as the package
description?  Not blank, not image-only, not shorter than the minimum
meaningful length. -/
def descQualifies (l : String) : Bool :=
  trimStr l != "" && !isImageLine l && minDescriptionLength ≤ (trimStr l).length

/-- Sequential scan for the package description.  `seen` records whether
the first top-level heading has been passed; `fence` is the fenced-block
state, tracked across the whole scan. -/
def descFind (seen fence : Bool) : List String → Option String
  | [] => none
  | l :: rest =>
      if isFenceLine l then descFind seen (!fence) rest
      else if fence then descFind seen fence rest
      else if !seen then descFind (isTopLevelHeading l) fence rest
      else if descQualifies l then some (trimStr l)
      else descFind seen fence rest

/-- `extractPackageDescription(markdownText)`: first qualifying prose line
after the first top-level heading, trimmed; the fixed fallback when none
qualifies. -/
def extractPackageDescription (markdownText : String) : String :=
  (descFind false false (splitLines markdownText)).getD fallbackDescription

/-! ## Time-bounded cache

Modelled from the spec: `src/services/cache.ts` is missing from the
sources.  §3/§4.1 of the spec: a key→value store; `set` records
`expiresAt = now + ttlMillis`; `get` returns the stored value when
present and unexpired ("entry is logically absent once `now >
expiresAt`"), signals absence otherwise, and removes a stale entry on an
expiry miss (cleanup-on-access).  Time is passed explicitly; the store is
an association list keyed by strings. -/

/-- One stored cache entry. -/
structure CacheEntry (α : Type) where
  value : α
  createdAt : Nat
  expiresAt : Nat
deriving DecidableEq, Repr

/-- The cache: an association list from keys to entries. -/
abbrev Cache (α : Type) : Type := List (String × CacheEntry α)

/-- The empty cache. -/
def Cache.empty (α : Type) : Cache α := []

/-- `set(key, value, ttlMillis)`: store/overwrite the entry with
`expiresAt = now + ttlMillis`. -/
def Cache.set (c : Cache α) (key : String) (value : α) (now ttlMillis : Nat) :
    Cache α :=
  (key, ⟨value, now, now + ttlMillis⟩) ::
    List.filter (fun p => p.1 != key) c

/-- `get(key)`: the stored value if present and unexpired, absence
otherwise; an expiry miss removes the stale entry.  Returns the result
together with the cache state after the read. -/
def Cache.get (c : Cache α) (key : String) (now : Nat) :
    Option α × Cache α :=
  match List.find? (fun p => p.1 == key) c with
  | none => (none, c)
  | some e =>
      if e.2.expiresAt < now then
        (none, List.filter (fun p => p.1 != key) c)
      else
        (some e.2.value, c)

/-! ## Conan Center registry client

Embedded from `src/services/conan-center-api.ts`.  The network fetch is
modelled as the response the registry hands back (`status`,
`statusText`, parsed JSON body); errors thrown by the code are modelled
as `Except.error` carrying the thrown message.  `handleApiError` (from
the missing `src/utils/error-handler.ts`) is modelled from the spec:
upstream failures "propagate as distinguishable error kinds to the
caller; the core components themselves do not wrap or reinterpret them"
(§7), matching the test that expects the original message to surface. -/

/-- Plain lexicographic comparison of character lists, modelling the
host language's default string sort order (code-unit comparison). -/
def strLeChars : List Char → List Char → Bool
  | [], _ => true
  | _ :: _, [] => false
  | a :: as, b :: bs =>
      if a.toNat < b.toNat then true
      else if b.toNat < a.toNat then false
      else strLeChars as bs

/-- Plain lexicographic string comparison. -/
def strLe (a b : String) : Bool :=
  strLeChars a.data b.data

/-- Plain ascending string order, as a relation. -/
def versionLe (a b : String) : Prop :=
  strLe a b = true

instance : DecidableRel versionLe := fun a b =>
  inferInstanceAs (Decidable (strLe a b = true))

/-- Revision info stored under one version key of a recipe. -/
structure ConanRevisionInfo where
  revisions : List String
deriving DecidableEq, Repr

/-- `ConanCenterRecipeResponse`: recipe metadata as returned by the
registry; the JSON `versions` object is an association list in the
registry's enumeration order. -/
structure ConanCenterRecipeResponse where
  name : String
  latest_version : String
  versions : List (String × ConanRevisionInfo)
  description : String
  license : String
  author : String
  homepage : String
  topics : List String
deriving DecidableEq, Repr

/-- An HTTP response as seen by the client code. -/
structure FetchResponse where
  status : Nat
  statusText : String
  body : ConanCenterRecipeResponse
deriving DecidableEq, Repr

/-- `response.ok`: HTTP success range. -/
def FetchResponse.ok (r : FetchResponse) : Bool :=
  200 ≤ r.status && r.status ≤ 299

/-- Message of the error thrown on a 404:
`Package '${packageName}' not found`. -/
def notFoundMessage (packageName : String) : String :=
  "Package '" ++ packageName ++ "' not found"

/-- Message of the error thrown on any other non-OK response:
`HTTP ${status}: ${statusText}`. -/
def httpErrorMessage (status : Nat) (statusText : String) : String :=
  "HTTP " ++ toString status ++ ": " ++ statusText

/-- Modelled from the spec: `handleApiError` of the missing
`src/utils/error-handler.ts` propagates the failure to the caller
without wrapping or reinterpreting it (§7). -/
def handleApiError (error : String) (_context : String) : String :=
  error

/-- `getRecipeInfo(packageName)` applied to the response the registry
returned: 404 raises the not-found error, any other non-OK status raises
the HTTP error, success returns the parsed body. -/
def getRecipeInfo (response : FetchResponse) (packageName : String) :
    Except String ConanCenterRecipeResponse :=
  if response.status = 404 then
    .error (handleApiError (notFoundMessage packageName)
      ("Conan Center recipe for " ++ packageName))
  else if !response.ok then
    .error (handleApiError (httpErrorMessage response.status response.statusText)
      ("Conan Center recipe for " ++ packageName))
  else
    .ok response.body

/-- `getAvailableVersions(packageName)`:
`Object.keys(recipeInfo.versions).sort()` — the version keys in plain
ascending string order (JavaScript's default sort). -/
def getAvailableVersions (response : FetchResponse) (packageName : String) :
    Except String (List String) :=
  (getRecipeInfo response packageName).map fun recipeInfo =>
    (recipeInfo.versions.map Prod.fst).insertionSort versionLe

/-! ## search-packages tool

Embedded from `src/tools/search-packages.ts`: check the cache under the
key built from the validated query and limit; on a hit return the cached
response without contacting the registry; on a miss call the registry
search, assemble the response, cache it for 15 minutes and return it.
The upstream registry search is passed as a function argument; the final
component of the result records whether it was invoked.
`createCacheKey.searchResults` (from the missing
`src/services/cache.ts`) is modelled from the spec's key construction
policy: `"<operation>:<normalized-args>"` (§6). -/

/-- One package summary in a search response. -/
structure PackageSummary where
  name : String
  description : String
  topics : List String
  license : String
  author : String
  homepage : String
  created_at : String
  updated_at : String
  latest_version : String
deriving DecidableEq, Repr

/-- Registry-side search payload. -/
structure ConanCenterSearchResponse where
  results : List PackageSummary
  total_count : Nat
deriving DecidableEq, Repr

/-- Tool-side search response. -/
structure SearchPackagesResponse where
  query : String
  results : List PackageSummary
  total_count : Nat
deriving DecidableEq, Repr

/-- Modelled from the spec: the cache key for search results, a
deterministic function of operation name, query and limit (§6). -/
def searchResultsCacheKey (query : String) (limit : Nat) : String :=
  "search_packages:" ++ query ++ ":" ++ toString limit

/-- TTL used by the tool when caching a search response: 15 minutes. -/
def searchCacheTtl : Nat := 900 * 1000

/-- The `searchPackages` tool on validated parameters.  Returns the
response, the cache state after the call, and whether the upstream
registry search was invoked. -/
def searchPackages
    (upstream : String → Nat → ConanCenterSearchResponse)
    (c : Cache SearchPackagesResponse) (now : Nat)
    (query : String) (limit : Nat) :
    SearchPackagesResponse × Cache SearchPackagesResponse × Bool :=
  let cacheKey := searchResultsCacheKey query limit
  match Cache.get c cacheKey now with
  | (some cached, c₁) => (cached, c₁, false)
  | (none, c₁) =>
      let searchResponse := upstream query limit
      let result : SearchPackagesResponse :=
        { query := query
          results := searchResponse.results
          total_count := searchResponse.total_count }
      (result, Cache.set c₁ cacheKey result now searchCacheTtl, true)

/-! ## Declarative view of fenced blocks

A document containing well-formed fenced blocks in order decomposes into
a list of `RawBlock`s — for each block the gap since the previous block's
closing fence (or document start), the opening fence line, the code lines
and the closing fence line — followed by trailing lines holding no
further well-formed block.  The theorems about `parseUsageExamples`
quantify over this decomposition. -/

/-- One well-formed fenced block in context. -/
structure RawBlock where
  gap : List String
  openLine : String
  codeLines : List String
  closeLine : String
deriving Repr

/-- Well-formedness: the gap and code lines are not fence delimiters; the
opening and closing lines are. -/
def RawBlock.wf (b : RawBlock) : Prop :=
  (∀ l ∈ b.gap, isFenceLine l = false) ∧
  isFenceLine b.openLine = true ∧
  (∀ l ∈ b.codeLines, isFenceLine l = false) ∧
  isFenceLine b.closeLine = true

instance (b : RawBlock) : Decidable b.wf := by
  unfold RawBlock.wf; infer_instance

/-- The lines of one block. -/
def RawBlock.flatten (b : RawBlock) : List String :=
  b.gap ++ b.openLine :: (b.codeLines ++ [b.closeLine])

/-- The document assembled from blocks `bs` followed by `tail`. -/
def docOf (bs : List RawBlock) (tail : List String) : List String :=
  match bs with
  | [] => tail
  | b :: rest => b.flatten ++ docOf rest tail

/-- The raw blocks the scanner is expected to emit for `bs`, given the
lookback lines `p` accumulated before the first block. -/
def rawBlocksOf (p : List String) : List RawBlock → List (List String × String × List String)
  | [] => []
  | b :: rest =>
      (p ++ b.gap, fenceInfoString b.openLine, b.codeLines) :: rawBlocksOf [] rest

/-! ## Declarative view of the package-description scan

An index-based restatement of `extractPackageDescription`, following the
spec's words: fence state at a position is the parity of fence-delimiter
lines before it; the scan region starts after the first top-level heading
outside fences; the result is the first line in that region, outside
fences, passing the skip rules. -/

/-- Fence state at line `i`, starting from state `fence`: flipped once
per fence-delimiter line strictly before `i`. -/
def inFenceFrom (fence : Bool) (ls : List String) (i : Nat) : Bool :=
  xor fence (decide ((ls.take i).countP isFenceLine % 2 = 1))

/-- Is index `i` past the (optional) lower bound? -/
def pastBound : Option Nat → Nat → Bool
  | none, _ => true
  | some h, i => decide (h < i)

/-- The lower bound transported across dropping the first line. -/
def shiftBound : Option Nat → Option Nat
  | none => none
  | some 0 => none
  | some (h + 1) => some h

/-- Index of the first top-level heading outside fences, with initial
fence state `fence`. -/
def headingIdxFrom (fence : Bool) (ls : List String) : Option Nat :=
  (List.range ls.length).find? fun j =>
    !inFenceFrom fence ls j && isTopLevelHeading (ls.getD j "")

/-- Index of the first description-qualifying line strictly past the
bound `lb`, outside fences (initial state `fence`) and not itself a
fence delimiter. -/
def qualifyingIdxFrom (fence : Bool) (lb : Option Nat) (ls : List String) :
    Option Nat :=
  (List.range ls.length).find? fun i =>
    pastBound lb i && !inFenceFrom fence ls i &&
      !isFenceLine (ls.getD i "") && descQualifies (ls.getD i "")

/-- Declarative counterpart of `descFind`: when the heading has already
been seen, the first qualifying line; otherwise the first qualifying
line strictly after the first top-level heading, if any. -/
def specFind (seen fence : Bool) (ls : List String) : Option String :=
  if seen then
    (qualifyingIdxFrom fence none ls).map fun i => trimStr (ls.getD i "")
  else
    match headingIdxFrom fence ls with
    | none => none
    | some h =>
        (qualifyingIdxFrom fence (some h) ls).map fun i => trimStr (ls.getD i "")

/-- The package description as the spec words it: the first line that
follows the first top-level heading and survives all skips, trimmed; the
fixed fallback otherwise. -/
def descriptionSpec (markdownText : String) : String :=
  (specFind false false (splitLines markdownText)).getD fallbackDescription

/-! ## Scanner lemmas -/

theorem scanBlocks_outside_append {gap : List String}
    (h : ∀ l ∈ gap, isFenceLine l = false) (p rest : List String) :
    scanBlocks (.outside p) (gap ++ rest) = scanBlocks (.outside (p ++ gap)) rest := by
  induction gap generalizing p with
  | nil => simp
  | cons l g ih =>
      have hl : isFenceLine l = false := h l (by simp)
      simp only [List.cons_append, scanBlocks, hl, Bool.false_eq_true, if_false,
        List.append_eq]
      rw [ih (fun x hx => h x (by simp [hx]))]
      simp

theorem scanBlocks_inside_append {code : List String}
    (h : ∀ l ∈ code, isFenceLine l = false) (p : List String) (i : String)
    (c rest : List String) :
    scanBlocks (.inside p i c) (code ++ rest) =
      scanBlocks (.inside p i (c ++ code)) rest := by
  induction code generalizing c with
  | nil => simp
  | cons l g ih =>
      have hl : isFenceLine l = false := h l (by simp)
      simp only [List.cons_append, scanBlocks, hl, Bool.false_eq_true, if_false,
        List.append_eq]
      rw [ih (fun x hx => h x (by simp [hx]))]
      simp

theorem scanBlocks_inside_nofence {code : List String}
    (h : ∀ l ∈ code, isFenceLine l = false) (p : List String) (i : String)
    (c : List String) :
    scanBlocks (.inside p i c) code = [] := by
  induction code generalizing c with
  | nil => rfl
  | cons l g ih =>
      have hl : isFenceLine l = false := h l (by simp)
      simp only [scanBlocks, hl, Bool.false_eq_true, if_false]
      exact ih (fun x hx => h x (by simp [hx])) _

theorem scanBlocks_outside_le_one {tail : List String}
    (h : tail.countP isFenceLine ≤ 1) (p : List String) :
    scanBlocks (.outside p) tail = [] := by
  induction tail generalizing p with
  | nil => rfl
  | cons l g ih =>
      by_cases hl : isFenceLine l = true
      · have hg : g.countP isFenceLine = 0 := by
          have := h
          simp only [List.countP_cons, hl, if_true] at this
          omega
        simp only [scanBlocks, hl, if_true]
        exact scanBlocks_inside_nofence
          (fun x hx => by
            have := List.countP_eq_zero.mp hg x hx
            simpa using this) _ _ _
      · have hg : g.countP isFenceLine ≤ 1 := by
          have := h
          simp only [List.countP_cons, hl, if_false] at this
          omega
        simp only [scanBlocks, hl, if_false]
        exact ih hg _

theorem scanBlocks_docOf {bs : List RawBlock} {tail : List String}
    (hwf : ∀ b ∈ bs, b.wf) (ht : tail.countP isFenceLine ≤ 1)
    (p : List String) :
    scanBlocks (.outside p) (docOf bs tail) = rawBlocksOf p bs := by
  induction bs generalizing p with
  | nil => exact scanBlocks_outside_le_one ht p
  | cons b rest ih =>
      obtain ⟨hgap, hopen, hcode, hclose⟩ := hwf b (by simp)
      simp only [docOf, RawBlock.flatten]
      rw [List.append_assoc]
      rw [scanBlocks_outside_append hgap]
      simp only [scanBlocks, hopen, if_true, List.append_eq, List.append_assoc,
        List.cons_append, List.nil_append]
      rw [scanBlocks_inside_append hcode]
      simp only [scanBlocks, hclose, if_true, List.nil_append]
      rw [ih (fun x hx => hwf x (by simp [hx]))]
      rfl

theorem rawBlocksOf_length (p : List String) (bs : List RawBlock) :
    (rawBlocksOf p bs).length = bs.length := by
  induction bs generalizing p with
  | nil => rfl
  | cons b rest ih => simp [rawBlocksOf, ih]

theorem rawBlocksOf_getElem? (p : List String) (bs : List RawBlock) (k : Nat) :
    (rawBlocksOf p bs)[k]? = (bs[k]?).map fun b =>
      ((if k = 0 then p else []) ++ b.gap, fenceInfoString b.openLine, b.codeLines) := by
  induction bs generalizing p k with
  | nil => simp [rawBlocksOf]
  | cons b rest ih =>
      cases k with
      | zero => simp [rawBlocksOf]
      | succ k => simp [rawBlocksOf, ih]

theorem parseUsageLines_docOf {bs : List RawBlock} {tail : List String}
    (hwf : ∀ b ∈ bs, b.wf) (ht : tail.countP isFenceLine ≤ 1) :
    parseUsageLines (docOf bs tail) =
      (rawBlocksOf [] bs).enum.map fun p => mkExample p.1 p.2 := by
  unfold parseUsageLines
  rw [scanBlocks_docOf hwf ht]

theorem parseUsageLines_docOf_getElem? {bs : List RawBlock} {tail : List String}
    (hwf : ∀ b ∈ bs, b.wf) (ht : tail.countP isFenceLine ≤ 1) (k : Nat) :
    (parseUsageLines (docOf bs tail))[k]? = (bs[k]?).map fun b =>
      mkExample k (b.gap, fenceInfoString b.openLine, b.codeLines) := by
  rw [parseUsageLines_docOf hwf ht]
  rw [List.getElem?_map, List.getElem?_enum, rawBlocksOf_getElem?]
  cases bs[k]? with
  | none => rfl
  | some b => simp

/-- C2: `parseUsageExamples` (a total function of its input, hence free of
exceptions) returns the empty sequence on empty input and on the
unterminated-fence input `"cpp\ncode"` prefixed by a fence; in general any
input whose lines contain at most one fence delimiter — in particular an
input consisting only of one unterminated fenced block — yields the empty
sequence. -/
theorem parseUsageExamples_unterminated_safe :
    parseUsageExamples "" = [] ∧
    parseUsageExamples "```cpp\ncode" = [] ∧
    ∀ s : String, (splitLines s).countP isFenceLine ≤ 1 →
      parseUsageExamples s = [] := by
  refine ⟨by decide, by decide, ?_⟩
  intro s h
  unfold parseUsageExamples parseUsageLines
  rw [scanBlocks_outside_le_one h]
  rfl

theorem parseUsageExamples_unterminated_safe_witness :
    parseUsageExamples "intro text\n```python\nnot closed" = [] :=
  parseUsageExamples_unterminated_safe.2.2 _ (by decide)

/-- C5: for a document decomposing into well-formed fenced blocks `bs`
(in document order) followed by a block-free tail, `parseUsageExamples`
returns exactly one example per block, and the `k`-th example's code is
the `k`-th block's code — the output preserves document order. -/
theorem parseUsageExamples_one_per_block
    (s : String) (bs : List RawBlock) (tail : List String)
    (hs : splitLines s = docOf bs tail)
    (hwf : ∀ b ∈ bs, b.wf) (ht : tail.countP isFenceLine ≤ 1) :
    (parseUsageExamples s).length = bs.length ∧
    ∀ k : Nat, ((parseUsageExamples s)[k]?).map UsageExample.code =
      (bs[k]?).map fun b => String.intercalate "\n" b.codeLines := by
  have hp : parseUsageExamples s = parseUsageLines (docOf bs tail) := by
    unfold parseUsageExamples; rw [hs]
  constructor
  · rw [hp, parseUsageLines_docOf hwf ht]
    simp [rawBlocksOf_length]
  · intro k
    rw [hp, parseUsageLines_docOf_getElem? hwf ht]
    cases bs[k]? with
    | none => rfl
    | some b => rfl

theorem parseUsageExamples_one_per_block_witness :
    ((parseUsageExamples "# T\n```cpp\ncode line\n```\ntail")[0]?).map
        UsageExample.code =
      (([⟨["# T"], "```cpp", ["code line"], "```"⟩] : List RawBlock)[0]?).map
        (fun b => String.intercalate "\n" b.codeLines) :=
  (parseUsageExamples_one_per_block _
    [⟨["# T"], "```cpp", ["code line"], "```"⟩] ["tail"]
    (by decide) (by decide) (by decide)).2 0

/-- C6: under the same decomposition, the `k`-th example's title is the
text (markers stripped, trimmed) of the nearest heading in the `k`-th
block's lookback window (the gap since the previous fence or document
start), and "Example <k+1>" when that window holds no heading. -/
theorem parseUsageExamples_titles
    (s : String) (bs : List RawBlock) (tail : List String)
    (hs : splitLines s = docOf bs tail)
    (hwf : ∀ b ∈ bs, b.wf) (ht : tail.countP isFenceLine ≤ 1) :
    ∀ k : Nat, ((parseUsageExamples s)[k]?).map UsageExample.title =
      (bs[k]?).map fun b =>
        match (b.gap.filter isHeadingLine).getLast? with
        | some h => headingText h
        | none => "Example " ++ toString (k + 1) := by
  have hp : parseUsageExamples s = parseUsageLines (docOf bs tail) := by
    unfold parseUsageExamples; rw [hs]
  intro k
  rw [hp, parseUsageLines_docOf_getElem? hwf ht]
  cases bs[k]? with
  | none => rfl
  | some b => rfl

theorem parseUsageExamples_titles_witness :
    ((parseUsageExamples "## Advanced Usage\nprose\n```cmake\nuse()\n```")[0]?).map
        UsageExample.title =
      (([⟨["## Advanced Usage", "prose"], "```cmake", ["use()"], "```"⟩] :
          List RawBlock)[0]?).map
        (fun b =>
          match (b.gap.filter isHeadingLine).getLast? with
          | some h => headingText h
          | none => "Example " ++ toString (0 + 1)) :=
  parseUsageExamples_titles _
    [⟨["## Advanced Usage", "prose"], "```cmake", ["use()"], "```"⟩] []
    (by decide) (by decide) (by decide) 0

/-- C7: under the same decomposition, the `k`-th example's language is the
opening fence's info-string lower-cased, passed through unvalidated, with
the empty info-string mapped to the fixed fallback tag. -/
theorem parseUsageExamples_languages
    (s : String) (bs : List RawBlock) (tail : List String)
    (hs : splitLines s = docOf bs tail)
    (hwf : ∀ b ∈ bs, b.wf) (ht : tail.countP isFenceLine ≤ 1) :
    ∀ k : Nat, ((parseUsageExamples s)[k]?).map UsageExample.language =
      (bs[k]?).map fun b =>
        if fenceInfoString b.openLine = "" then defaultLanguageTag
        else lowerStr (fenceInfoString b.openLine) := by
  have hp : parseUsageExamples s = parseUsageLines (docOf bs tail) := by
    unfold parseUsageExamples; rw [hs]
  intro k
  rw [hp, parseUsageLines_docOf_getElem? hwf ht]
  cases bs[k]? with
  | none => rfl
  | some b => simp [mkExample, normalizeLanguage]

theorem parseUsageExamples_languages_witness :
    ((parseUsageExamples "```CPP\nint x;\n```")[0]?).map
        UsageExample.language =
      (([⟨[], "```CPP", ["int x;"], "```"⟩] : List RawBlock)[0]?).map
        (fun b =>
          if fenceInfoString b.openLine = "" then defaultLanguageTag
          else lowerStr (fenceInfoString b.openLine)) :=
  parseUsageExamples_languages _ [⟨[], "```CPP", ["int x;"], "```"⟩] []
    (by decide) (by decide) (by decide) 0

/-- C9: `parseUsageExamples` is deterministic — equal inputs always yield
equal ordered output sequences.  (It is a pure function of its input by
construction: the embedding threads no state and the input is never
modified.) -/
theorem parseUsageExamples_deterministic (s₁ s₂ : String) (h : s₁ = s₂) :
    parseUsageExamples s₁ = parseUsageExamples s₂ := by
  rw [h]

theorem parseUsageExamples_deterministic_witness :
    parseUsageExamples "# A\n```cpp\nx\n```" =
      parseUsageExamples "# A\n```cpp\nx\n```" :=
  parseUsageExamples_deterministic _ _ rfl

/-! ## Cache lemmas -/

theorem Cache.get_set_self {α : Type} (c : Cache α) (k : String) (v : α)
    (now ttlMillis t : Nat) :
    ((Cache.set c k v now ttlMillis).get k t).1 =
      if t ≤ now + ttlMillis then some v else none := by
  have hf : List.find? (fun p => p.1 == k)
      ((k, (⟨v, now, now + ttlMillis⟩ : CacheEntry α)) ::
        List.filter (fun p => p.1 != k) c) =
      some (k, ⟨v, now, now + ttlMillis⟩) :=
    List.find?_cons_of_pos _ (by simp)
  simp only [Cache.set, Cache.get, hf]
  by_cases h : t ≤ now + ttlMillis
  · rw [if_neg (show ¬ ((⟨v, now, now + ttlMillis⟩ : CacheEntry α).expiresAt < t) by
      simp only; omega), if_pos h]
  · rw [if_pos (show (⟨v, now, now + ttlMillis⟩ : CacheEntry α).expiresAt < t by
      simp only; omega), if_neg h]

theorem Cache.get_some_not_expired {α : Type} (c : Cache α) (k : String)
    (t : Nat) (w : α) (h : (Cache.get c k t).1 = some w) :
    ∃ e ∈ c, e.1 = k ∧ e.2.value = w ∧ t ≤ e.2.expiresAt := by
  cases hf : List.find? (fun p => p.1 == k) c with
  | none => simp only [Cache.get, hf] at h; exact absurd h (by simp)
  | some e =>
      simp only [Cache.get, hf] at h
      by_cases hexp : e.2.expiresAt < t
      · rw [if_pos hexp] at h; exact absurd h (by simp)
      · rw [if_neg hexp] at h
        refine ⟨e, List.mem_of_find?_eq_some hf, ?_, ?_, by omega⟩
        · have := List.find?_some hf
          simpa using this
        · simpa using h

/-- C1: after `set(k, v, ttlMillis)` with positive TTL, `get(k)` at any
time up to the expiry time `now + ttlMillis` returns the stored value,
and at any time strictly past it signals absence; moreover no read path
ever returns a value except from an entry whose expiry has not passed. -/
theorem cache_ttl_expiry {α : Type} (c : Cache α) (k : String) (v : α)
    (ttlMillis now t : Nat) (httl : 0 < ttlMillis) :
    (t ≤ now + ttlMillis →
      ((Cache.set c k v now ttlMillis).get k t).1 = some v) ∧
    (now + ttlMillis < t →
      ((Cache.set c k v now ttlMillis).get k t).1 = none) ∧
    (∀ (c' : Cache α) (k' : String) (t' : Nat) (w : α),
      (Cache.get c' k' t').1 = some w →
        ∃ e ∈ c', e.1 = k' ∧ e.2.value = w ∧ t' ≤ e.2.expiresAt) := by
  refine ⟨?_, ?_, fun c' k' t' w h => Cache.get_some_not_expired c' k' t' w h⟩
  · intro h
    rw [Cache.get_set_self, if_pos h]
  · intro h
    rw [Cache.get_set_self, if_neg (by omega)]

theorem cache_ttl_expiry_witness :
    ((Cache.set (Cache.empty Nat) "k" 7 100 10).get "k" 110).1 = some 7 :=
  (cache_ttl_expiry (Cache.empty Nat) "k" 7 10 100 110 (by decide)).1 (by decide)

/-- C4: on a validated search request, a cache hit under the key derived
from the query and limit is returned as-is and the upstream search is not
invoked; on a miss the upstream search runs, its results are assembled
into the response, which is stored in the cache (retrievable until the
TTL expires) and returned. -/
theorem searchPackages_cache_behavior
    (upstream : String → Nat → ConanCenterSearchResponse)
    (c : Cache SearchPackagesResponse) (now : Nat)
    (query : String) (limit : Nat) :
    (∀ v, (Cache.get c (searchResultsCacheKey query limit) now).1 = some v →
      searchPackages upstream c now query limit =
        (v, (Cache.get c (searchResultsCacheKey query limit) now).2, false)) ∧
    ((Cache.get c (searchResultsCacheKey query limit) now).1 = none →
      (searchPackages upstream c now query limit).2.2 = true ∧
      (searchPackages upstream c now query limit).1 =
        { query := query
          results := (upstream query limit).results
          total_count := (upstream query limit).total_count } ∧
      ∀ t, t ≤ now + searchCacheTtl →
        (Cache.get (searchPackages upstream c now query limit).2.1
            (searchResultsCacheKey query limit) t).1 =
          some (searchPackages upstream c now query limit).1) := by
  rcases hg : Cache.get c (searchResultsCacheKey query limit) now with ⟨r, c₁⟩
  constructor
  · intro v hv
    have hv' : r = some v := hv
    subst hv'
    simp [searchPackages, hg]
  · intro hnone
    have hn' : r = none := hnone
    subst hn'
    refine ⟨?_, ?_, ?_⟩
    · simp [searchPackages, hg]
    · simp [searchPackages, hg]
    · intro t ht
      simp only [searchPackages, hg]
      rw [Cache.get_set_self, if_pos ht]

theorem searchPackages_cache_behavior_witness :
    (searchPackages (fun _ _ => ⟨[], 0⟩)
        (Cache.empty SearchPackagesResponse) 0 "boost" 20).2.2 = true :=
  ((searchPackages_cache_behavior (fun _ _ => ⟨[], 0⟩)
      (Cache.empty SearchPackagesResponse) 0 "boost" 20).2 rfl).1

/-! ## Registry client lemmas -/

theorem notFoundMessage_ne_httpErrorMessage (name : String) (status : Nat)
    (text : String) : notFoundMessage name ≠ httpErrorMessage status text := by
  intro h
  have hd := congrArg String.data h
  rw [notFoundMessage, httpErrorMessage] at hd
  simp only [String.data_append] at hd
  simp only [List.cons_append] at hd
  exact absurd (List.head_eq_of_cons_eq hd) (by decide)

/-- C8: `getRecipeInfo` raises the not-found error — whose message names
the package and is distinct from every HTTP-status error message —
exactly when the registry responds 404; a successful response returns the
recipe metadata, and any other non-OK status raises the HTTP-status
error. -/
theorem getRecipeInfo_distinguishes (response : FetchResponse)
    (packageName : String) :
    (getRecipeInfo response packageName =
        .error (notFoundMessage packageName) ↔ response.status = 404) ∧
    (response.ok = true →
      getRecipeInfo response packageName = .ok response.body) ∧
    (response.ok = false → response.status ≠ 404 →
      getRecipeInfo response packageName =
        .error (httpErrorMessage response.status response.statusText)) ∧
    (∀ st tx, notFoundMessage packageName ≠ httpErrorMessage st tx) ∧
    (∃ pre post, notFoundMessage packageName = pre ++ packageName ++ post) := by
  refine ⟨⟨?_, ?_⟩, ?_, ?_,
    fun st tx => notFoundMessage_ne_httpErrorMessage packageName st tx,
    ⟨"Package '", "' not found", rfl⟩⟩
  · intro h
    by_contra h404
    unfold getRecipeInfo handleApiError at h
    rw [if_neg h404] at h
    by_cases hok : response.ok = true
    · rw [hok] at h
      simp at h
    · rw [Bool.not_eq_true] at hok
      rw [hok] at h
      simp only [Bool.not_false, if_pos] at h
      exact notFoundMessage_ne_httpErrorMessage packageName _ _
        (Except.error.inj h).symm
  · intro h404
    unfold getRecipeInfo handleApiError
    rw [if_pos h404]
  · intro hok
    have h404 : response.status ≠ 404 := by
      have := hok
      unfold FetchResponse.ok at this
      intro hc
      rw [hc] at this
      simp at this
    unfold getRecipeInfo handleApiError
    rw [if_neg h404, hok]
    simp
  · intro hok h404
    unfold getRecipeInfo handleApiError
    rw [if_neg h404, hok]
    simp

theorem getRecipeInfo_distinguishes_witness :
    getRecipeInfo
        ⟨404, "Not Found", ⟨"x", "v", [], "d", "l", "a", "h", []⟩⟩
        "nonexistent" =
      .error (notFoundMessage "nonexistent") :=
  (getRecipeInfo_distinguishes
    ⟨404, "Not Found", ⟨"x", "v", [], "d", "l", "a", "h", []⟩⟩
    "nonexistent").1.mpr rfl

/-! ## String-order lemmas (for the version sort) -/

theorem char_eq_of_toNat_eq {a b : Char} (h : a.toNat = b.toNat) : a = b := by
  cases a with | mk av ap =>
  cases b with | mk bv bp =>
  simp only [Char.toNat] at h
  have hv : av = bv := UInt32.ext h
  subst hv
  rfl

theorem strLeChars_total : ∀ a b : List Char,
    strLeChars a b = true ∨ strLeChars b a = true
  | [], _ => Or.inl rfl
  | _ :: _, [] => Or.inr rfl
  | a :: as, b :: bs => by
      unfold strLeChars
      by_cases h1 : a.toNat < b.toNat
      · left; rw [if_pos h1]
      · by_cases h2 : b.toNat < a.toNat
        · right; rw [if_pos h2]
        · rw [if_neg h1, if_neg h2, if_neg h2, if_neg h1]
          exact strLeChars_total as bs

theorem strLeChars_trans : ∀ a b c : List Char,
    strLeChars a b = true → strLeChars b c = true → strLeChars a c = true
  | [], _, _, _, _ => rfl
  | _ :: _, [], _, h1, _ => by simp [strLeChars] at h1
  | _ :: _, _ :: _, [], _, h2 => by simp [strLeChars] at h2
  | a :: as, b :: bs, c :: cs, h1, h2 => by
      unfold strLeChars at h1 h2 ⊢
      by_cases hab : a.toNat < b.toNat
      · by_cases hbc : b.toNat < c.toNat
        · rw [if_pos (show a.toNat < c.toNat by omega)]
        · by_cases hcb : c.toNat < b.toNat
          · rw [if_neg hbc, if_pos hcb] at h2
            exact absurd h2 (by simp)
          · rw [if_pos (show a.toNat < c.toNat by omega)]
      · by_cases hba : b.toNat < a.toNat
        · rw [if_neg hab, if_pos hba] at h1
          exact absurd h1 (by simp)
        · by_cases hbc : b.toNat < c.toNat
          · rw [if_pos (show a.toNat < c.toNat by omega)]
          · by_cases hcb : c.toNat < b.toNat
            · rw [if_neg hbc, if_pos hcb] at h2
              exact absurd h2 (by simp)
            · rw [if_neg hab, if_neg hba] at h1
              rw [if_neg hbc, if_neg hcb] at h2
              rw [if_neg (show ¬ a.toNat < c.toNat by omega),
                if_neg (show ¬ c.toNat < a.toNat by omega)]
              exact strLeChars_trans as bs cs h1 h2

theorem strLeChars_antisymm : ∀ a b : List Char,
    strLeChars a b = true → strLeChars b a = true → a = b
  | [], [], _, _ => rfl
  | [], _ :: _, _, h2 => by simp [strLeChars] at h2
  | _ :: _, [], h1, _ => by simp [strLeChars] at h1
  | a :: as, b :: bs, h1, h2 => by
      unfold strLeChars at h1 h2
      by_cases hab : a.toNat < b.toNat
      · rw [if_neg (show ¬ b.toNat < a.toNat by omega), if_pos hab] at h2
        exact absurd h2 (by simp)
      · by_cases hba : b.toNat < a.toNat
        · rw [if_neg hab, if_pos hba] at h1
          exact absurd h1 (by simp)
        · rw [if_neg hab, if_neg hba] at h1
          rw [if_neg hba, if_neg hab] at h2
          rw [char_eq_of_toNat_eq (show a.toNat = b.toNat by omega),
            strLeChars_antisymm as bs h1 h2]

/-- C10: when the recipe lookup succeeds, `getAvailableVersions` returns
the keys of the recipe's version map sorted in ascending plain-string
(lexicographic) order: the result is a sorted permutation of the keys,
and any registry enumeration of the same keys (in any order) yields the
same result. -/
theorem getAvailableVersions_sorted_keys (response : FetchResponse)
    (packageName : String) (recipeInfo : ConanCenterRecipeResponse)
    (hok : getRecipeInfo response packageName = .ok recipeInfo) :
    (∃ vs, getAvailableVersions response packageName = .ok vs) ∧
    (∀ vs, getAvailableVersions response packageName = .ok vs →
      vs.Sorted versionLe ∧ vs.Perm (recipeInfo.versions.map Prod.fst)) ∧
    (∀ (response' : FetchResponse) (packageName' : String)
        (recipeInfo' : ConanCenterRecipeResponse),
      getRecipeInfo response' packageName' = .ok recipeInfo' →
      (recipeInfo'.versions.map Prod.fst).Perm
        (recipeInfo.versions.map Prod.fst) →
      getAvailableVersions response' packageName' =
        getAvailableVersions response packageName) := by
  letI instTot : IsTotal String versionLe :=
    ⟨fun a b => strLeChars_total a.data b.data⟩
  letI instTrans : IsTrans String versionLe :=
    ⟨fun a b c h1 h2 => strLeChars_trans a.data b.data c.data h1 h2⟩
  letI instAnti : IsAntisymm String versionLe :=
    ⟨fun a b h1 h2 => String.ext (strLeChars_antisymm a.data b.data h1 h2)⟩
  have heq : getAvailableVersions response packageName =
      .ok ((recipeInfo.versions.map Prod.fst).insertionSort versionLe) := by
    unfold getAvailableVersions
    rw [hok]
    rfl
  refine ⟨⟨_, heq⟩, ?_, ?_⟩
  · intro vs hvs
    rw [heq] at hvs
    have hv : (recipeInfo.versions.map Prod.fst).insertionSort versionLe = vs :=
      Except.ok.inj hvs
    rw [← hv]
    exact ⟨List.sorted_insertionSort versionLe _,
      List.perm_insertionSort versionLe _⟩
  · intro response' packageName' recipeInfo' hok' hperm
    have heq' : getAvailableVersions response' packageName' =
        .ok ((recipeInfo'.versions.map Prod.fst).insertionSort versionLe) := by
      unfold getAvailableVersions
      rw [hok']
      rfl
    rw [heq, heq']
    congr 1
    exact List.eq_of_perm_of_sorted
      ((List.perm_insertionSort versionLe _).trans
        (hperm.trans (List.perm_insertionSort versionLe _).symm))
      (List.sorted_insertionSort versionLe _)
      (List.sorted_insertionSort versionLe _)

theorem getAvailableVersions_sorted_keys_witness :
    (["1.10.0", "1.9.0"] : List String).Sorted versionLe ∧
    (["1.10.0", "1.9.0"] : List String).Perm
      (([("1.9.0", (⟨[]⟩ : ConanRevisionInfo)), ("1.10.0", ⟨[]⟩)]).map
        Prod.fst) :=
  (getAvailableVersions_sorted_keys
    ⟨200, "OK",
      ⟨"boost", "1.82.0", [("1.9.0", ⟨[]⟩), ("1.10.0", ⟨[]⟩)],
        "d", "l", "a", "h", []⟩⟩
    "boost" _ rfl).2.1 ["1.10.0", "1.9.0"] rfl

/-! ## Equivalence of the description scan with its declarative form -/

theorem fence_not_topLevelHeading {l : String} (h : isFenceLine l = true) :
    isTopLevelHeading l = false := by
  by_contra hc
  rw [Bool.not_eq_false] at hc
  unfold isFenceLine strStarts at h
  unfold isTopLevelHeading strStarts at hc
  rw [Bool.and_eq_true] at hc
  obtain ⟨h1, _⟩ := hc
  obtain ⟨t1, ht1⟩ := List.isPrefixOf_iff_prefix.mp h
  obtain ⟨t2, ht2⟩ := List.isPrefixOf_iff_prefix.mp h1
  have e : "#".data ++ t2 = "```".data ++ t1 := by rw [ht1, ht2]
  simp only [List.cons_append, List.nil_append] at e
  exact absurd (List.head_eq_of_cons_eq e) (by decide)

theorem inFenceFrom_zero (fence : Bool) (ls : List String) :
    inFenceFrom fence ls 0 = fence := by
  simp [inFenceFrom]

theorem inFenceFrom_succ (fence : Bool) (l : String) (rest : List String)
    (j : Nat) :
    inFenceFrom fence (l :: rest) (j + 1) =
      inFenceFrom (xor fence (isFenceLine l)) rest j := by
  unfold inFenceFrom
  rw [List.take_succ_cons, List.countP_cons]
  rcases Nat.mod_two_eq_zero_or_one
      (List.countP isFenceLine (List.take j rest)) with h | h <;>
    cases hl : isFenceLine l <;> cases fence <;>
      simp [h, Nat.add_mod]

theorem pastBound_succ (lb : Option Nat) (j : Nat) :
    pastBound lb (j + 1) = pastBound (shiftBound lb) j := by
  cases lb with
  | none => rfl
  | some h =>
      cases h with
      | zero => simp [pastBound, shiftBound]
      | succ h => simp [pastBound, shiftBound, Nat.succ_lt_succ_iff]

theorem find?_range_succ (p : Nat → Bool) (n : Nat) :
    (List.range (n + 1)).find? p =
      if p 0 then some 0
      else ((List.range n).find? (fun j => p (j + 1))).map (· + 1) := by
  rw [List.range_succ_eq_map]
  by_cases h : p 0 = true
  · rw [List.find?_cons_of_pos _ h, if_pos h]
  · rw [List.find?_cons_of_neg _ (by simp [h]), if_neg (by simp [h]),
      List.find?_map]
    have hps : (p ∘ Nat.succ) = fun j => p (j + 1) := by
      funext j
      simp [Function.comp, Nat.succ_eq_add_one]
    have hsucc : (Nat.succ : Nat → Nat) = (· + 1) := by
      funext j
      simp [Nat.succ_eq_add_one]
    rw [hps, hsucc]

theorem headingIdxFrom_cons (fence : Bool) (l : String) (rest : List String) :
    headingIdxFrom fence (l :: rest) =
      if !fence && isTopLevelHeading l then some 0
      else (headingIdxFrom (xor fence (isFenceLine l)) rest).map (· + 1) := by
  unfold headingIdxFrom
  rw [show (l :: rest).length = rest.length + 1 from rfl, find?_range_succ]
  simp only [inFenceFrom_zero, inFenceFrom_succ, List.getD_cons_zero,
    List.getD_cons_succ]

theorem qualifyingIdxFrom_cons (fence : Bool) (lb : Option Nat) (l : String)
    (rest : List String) :
    qualifyingIdxFrom fence lb (l :: rest) =
      if pastBound lb 0 && (!fence && (!isFenceLine l && descQualifies l))
      then some 0
      else (qualifyingIdxFrom (xor fence (isFenceLine l)) (shiftBound lb)
        rest).map (· + 1) := by
  unfold qualifyingIdxFrom
  rw [show (l :: rest).length = rest.length + 1 from rfl, find?_range_succ]
  simp only [inFenceFrom_zero, inFenceFrom_succ, pastBound_succ,
    List.getD_cons_zero, List.getD_cons_succ, Bool.and_assoc]

theorem map_succ_getD (rest : List String) (l : String) (o : Option Nat) :
    (o.map (· + 1)).map (fun i => trimStr ((l :: rest).getD i "")) =
      o.map (fun i => trimStr (rest.getD i "")) := by
  cases o with
  | none => rfl
  | some i => simp

theorem headShift_aux (fence fence' : Bool) (l : String) (rest : List String)
    (hx : xor fence (isFenceLine l) = fence') :
    (match (headingIdxFrom fence' rest).map (· + 1) with
      | none => (none : Option String)
      | some h => (qualifyingIdxFrom fence (some h) (l :: rest)).map
          (fun i => trimStr ((l :: rest).getD i ""))) =
      specFind false fence' rest := by
  cases hh : headingIdxFrom fence' rest with
  | none =>
      conv_rhs => unfold specFind
      rw [if_neg (by simp), hh]
      rfl
  | some h =>
      conv_rhs => unfold specFind
      rw [if_neg (by simp), hh]
      show (qualifyingIdxFrom fence (some (h + 1)) (l :: rest)).map
          (fun i => trimStr ((l :: rest).getD i "")) =
        (qualifyingIdxFrom fence' (some h) rest).map
          (fun i => trimStr (rest.getD i ""))
      rw [qualifyingIdxFrom_cons]
      have hpb : pastBound (some (h + 1)) 0 = false := by
        simp [pastBound]
      rw [hpb]
      simp only [Bool.false_and, Bool.false_eq_true, if_false]
      rw [hx, show shiftBound (some (h + 1)) = some h from rfl, map_succ_getD]

theorem specFind_cons (seen fence : Bool) (l : String) (rest : List String) :
    specFind seen fence (l :: rest) =
      if isFenceLine l then specFind seen (!fence) rest
      else if fence then specFind seen fence rest
      else if !seen then specFind (isTopLevelHeading l) fence rest
      else if descQualifies l then some (trimStr l)
      else specFind seen fence rest := by
  cases seen with
  | true =>
      conv_lhs => unfold specFind
      rw [if_pos rfl, qualifyingIdxFrom_cons]
      by_cases hF : isFenceLine l = true
      · rw [hF]
        simp only [Bool.not_true, Bool.false_and, Bool.and_false,
          Bool.false_eq_true, if_false, Bool.xor_true,
          show shiftBound none = none from rfl, map_succ_getD, if_true]
        conv_rhs => unfold specFind
        rw [if_pos rfl]
      · rw [Bool.not_eq_true] at hF
        rw [hF]
        by_cases hfen : fence = true
        · rw [hfen]
          simp only [Bool.not_true, Bool.false_and, Bool.and_false,
            Bool.false_eq_true, if_false, Bool.xor_false, Bool.not_false,
            show shiftBound none = none from rfl, map_succ_getD, if_true]
          conv_rhs => unfold specFind
          rw [if_pos rfl]
        · rw [Bool.not_eq_true] at hfen
          rw [hfen]
          by_cases hq : descQualifies l = true
          · rw [hq]
            simp [pastBound]
          · rw [Bool.not_eq_true] at hq
            rw [hq]
            simp only [Bool.not_true, Bool.not_false, Bool.and_false,
              Bool.and_true, Bool.true_and, Bool.false_eq_true, if_false,
              Bool.xor_false, show shiftBound none = none from rfl,
              map_succ_getD]
            conv_rhs => unfold specFind
            rw [if_pos rfl]
  | false =>
      conv_lhs => unfold specFind
      rw [if_neg (by simp), headingIdxFrom_cons]
      by_cases hF : isFenceLine l = true
      · have hT : isTopLevelHeading l = false := fence_not_topLevelHeading hF
        rw [hF, hT]
        simp only [Bool.and_false, Bool.false_eq_true, if_false,
          Bool.xor_true, if_true, Bool.not_false]
        exact headShift_aux fence (!fence) l rest
          (by rw [hF, Bool.xor_true])
      · rw [Bool.not_eq_true] at hF
        rw [hF]
        by_cases hfen : fence = true
        · rw [hfen]
          simp only [Bool.not_true, Bool.false_and, Bool.false_eq_true,
            if_false, Bool.xor_false, if_true]
          exact headShift_aux true true l rest (by rw [hF, Bool.xor_false])
        · rw [Bool.not_eq_true] at hfen
          rw [hfen]
          by_cases hT : isTopLevelHeading l = true
          · rw [hT]
            simp only [Bool.not_false, Bool.true_and, if_true]
            rw [qualifyingIdxFrom_cons]
            have hpb : pastBound (some 0) 0 = false := by simp [pastBound]
            rw [hpb]
            simp only [Bool.false_and, Bool.false_eq_true, if_false]
            rw [hF, show shiftBound (some 0) = none from rfl, map_succ_getD,
              Bool.xor_false]
            conv_rhs => unfold specFind
            rw [if_pos rfl]
          · rw [Bool.not_eq_true] at hT
            rw [hT]
            simp only [Bool.and_false, Bool.false_eq_true, if_false,
              Bool.xor_false, Bool.not_false, if_true]
            exact headShift_aux false false l rest
              (by rw [hF, Bool.xor_false])

theorem descFind_eq_specFind (ls : List String) :
    ∀ seen fence : Bool, descFind seen fence ls = specFind seen fence ls := by
  induction ls with
  | nil =>
      intro seen fence
      cases seen <;> rfl
  | cons l rest ih =>
      intro seen fence
      rw [specFind_cons]
      simp only [descFind]
      split_ifs <;> first | rfl | apply ih

/-- C3: `extractPackageDescription` returns, for every markdown input,
exactly what the spec describes: the first line after the first top-level
heading that is not blank, not image-only, not shorter than the minimum
meaningful length and not inside a fenced code block (fence state tracked
over the whole scan), trimmed; and the fixed fallback string — stable
across all such inputs, in particular the empty one — when no line
qualifies. -/
theorem extractPackageDescription_correct :
    (∀ markdownText : String,
      extractPackageDescription markdownText = descriptionSpec markdownText) ∧
    extractPackageDescription "" = fallbackDescription := by
  refine ⟨fun markdownText => ?_, by decide⟩
  unfold extractPackageDescription descriptionSpec
  rw [descFind_eq_specFind]

end ConanMcp
